import Mathlib

/-!
Verification of the RRgen population-registry data generator.

This file gives a shallow embedding of the timeline engine and family
graph builder of the repository (src/generation/isikuaadress.py,
src/generation/utils.py, src/generation/temp_relationships.py) and
proves or refutes the frozen claims about them.

Modelling conventions:
- dates (datetime values at day granularity) are integers, counting days;
  a nullable date is an Option Int;
- code identifiers (KdID) are naturals; a lookup that can miss yields
  Option Nat;
- every call to the random module is replaced by an explicit draw
  parameter (an oracle): random.randint(0, delta) becomes
  min draw delta for an arbitrary natural draw, which ranges over
  exactly the values the library call can return;
- pandas DataFrames are lists of structures; audit columns of the
  address-history table that no claim mentions (ADSILID, IAdrPiirang,
  IAsIDLooja, LoodiKpv, IAsIDMuutja, MuudetiKpv, KustutatiKpv) are
  omitted from the record type, since no modelled step reads them and
  the final audit-date pass writes only them.
-/

/-- Row of the kodifikaator codebook: short name and code id, the two
columns read by get_kdid_for_name. -/
structure KdRow where
  lyhikeNimi : String
  kdID : Nat
deriving DecidableEq

/-- Embedding of utils.get_kdid_for_name: filter the codebook on
KdLyhikeNimi and return the first KdID, None when no row matches. -/
def get_kdid_for_name (df : List KdRow) (shortName : String) : Option Nat :=
  match df.filter (fun r => r.lyhikeNimi == shortName) with
  | [] => none
  | r :: _ => some r.kdID

/-- Embedding of utils.random_date: swap the endpoints when given in the
wrong order, return the lower endpoint when the range is degenerate,
otherwise add the drawn number of days (randint(0, delta) is modelled as
min draw delta). -/
def random_date (start finish : Int) (draw : Nat) : Int :=
  let s := if finish < start then finish else start
  let e := if finish < start then start else finish
  let delta := e - s
  if delta ≤ 0 then s else s + min (draw : Int) delta

/-- Record of the person-address history table (05_isikuaadress), with
the columns the claims are about.  Field names follow the source columns:
alates is IAdrKehtibAlatesKpv, kuni is IAdrKehtibKuniKpv, liik is
KdIDAadressiLiik, staatus is KdIDAadressiStaatus, jargmine is
IAdrIDJargmine. -/
structure IRec where
  iadrID : Nat
  adrID : Nat
  isID : Nat
  alates : Int
  kuni : Option Int
  liik : Option Nat
  staatus : Option Nat
  dokIDAlus : Option Nat
  jargmine : Option Nat
  dokIDLopuAlus : Option Nat
deriving DecidableEq

/-- Clamping step of utils.adjust_timeline_for_death: a period whose end
is null or later than the death date is truncated to the death date and
marked with the KEHTETU status and ENDINE ELUKOHT kind codes. -/
def deathClamp (d : Int) (kk ke : Option Nat) (r : IRec) : IRec :=
  match r.kuni with
  | none => { r with kuni := some d, staatus := kk, liik := ke }
  | some e => if d < e then { r with kuni := some d, staatus := kk, liik := ke } else r

/-- Loop body of utils.adjust_timeline_for_death: drop periods starting
strictly after the death date, clamp the rest. -/
def deathFilterMap (d : Int) (kk ke : Option Nat) : List IRec → List IRec
  | [] => []
  | r :: rest =>
    if d < r.alates then deathFilterMap d kk ke rest
    else deathClamp d kk ke r :: deathFilterMap d kk ke rest

/-- Embedding of utils.adjust_timeline_for_death.  A null death date is
the identity; otherwise the KEHTETU and ENDINE ELUKOHT codes are looked
up once and the timeline is filtered and clamped.  (The source also
replaces a null start date by datetime.min before comparing; start dates
of this table are never null, so the record type keeps them total.) -/
def adjust_timeline_for_death (kd : List KdRow) (timeline : List IRec) (death : Option Int) :
    List IRec :=
  match death with
  | none => timeline
  | some d =>
    deathFilterMap d (get_kdid_for_name kd ("KEHTETU")) (get_kdid_for_name kd ("ENDINE ELUKOHT"))
      timeline

/-- Helper for claim C3: the single-pass death adjustment agrees with
filtering the kept periods and mapping the clamp over them. -/
theorem deathFilterMap_eq_filter_map (d : Int) (kk ke : Option Nat) (l : List IRec) :
    deathFilterMap d kk ke l =
      (l.filter (fun r => decide (r.alates ≤ d))).map (deathClamp d kk ke) := by
  induction l with
  | nil => rfl
  | cons r rest ih =>
    by_cases h : d < r.alates
    · have hdec : (decide (r.alates ≤ d)) = false := by
        simp only [decide_eq_false_iff_not]
        omega
      simp [deathFilterMap, h, List.filter_cons, hdec, ih]
    · have hdec : (decide (r.alates ≤ d)) = true := by
        simp only [decide_eq_true_eq]
        omega
      simp [deathFilterMap, h, List.filter_cons, hdec, ih]

/-- Claim C3: adjust_timeline_for_death is the identity on a null death
date; otherwise it removes exactly the periods that start strictly after
the death date (a period starting on the death date is kept) and clamps
every kept period whose end is null or later than the death date to end
exactly at the death date with the inactive status and former-residence
kind codes. -/
theorem adjust_timeline_for_death_spec (kd : List KdRow) (tl : List IRec) (d : Int) :
    adjust_timeline_for_death kd tl none = tl ∧
    adjust_timeline_for_death kd tl (some d) =
      (tl.filter (fun r => decide (r.alates ≤ d))).map
        (deathClamp d (get_kdid_for_name kd ("KEHTETU"))
          (get_kdid_for_name kd ("ENDINE ELUKOHT"))) := by
  exact ⟨rfl, deathFilterMap_eq_filter_map _ _ _ _⟩

/-- Claim C9: the code lookup is a total function (it never raises); it
returns None exactly when no codebook row carries the requested short
name, and the first matching row's KdID otherwise. -/
theorem get_kdid_for_name_spec (df : List KdRow) (n : String) :
    ((∀ r ∈ df, r.lyhikeNimi ≠ n) → get_kdid_for_name df n = none) ∧
    (∀ r, df.find? (fun r => r.lyhikeNimi == n) = some r →
      get_kdid_for_name df n = some r.kdID) := by
  induction df with
  | nil =>
    refine ⟨fun _ => rfl, fun r h => ?_⟩
    simp [List.find?] at h
  | cons a rest ih =>
    constructor
    · intro hnone
      have ha : (a.lyhikeNimi == n) = false := by
        simp only [beq_eq_false_iff_ne, ne_eq]
        exact hnone a (by simp)
      have hrest := ih.1 (fun r hr => hnone r (by simp [hr]))
      simpa [get_kdid_for_name, List.filter_cons, ha] using hrest
    · intro r hfind
      by_cases ha : (a.lyhikeNimi == n) = true
      · simp only [List.find?, ha] at hfind
        cases hfind
        simp [get_kdid_for_name, List.filter_cons, ha]
      · have ha' : (a.lyhikeNimi == n) = false := by
          simpa using ha
        simp only [List.find?, ha'] at hfind
        have := ih.2 r hfind
        simpa [get_kdid_for_name, List.filter_cons, ha'] using this

/-- Witness for claim C9 at concrete codebooks: a miss yields None, a
hit yields the matching KdID. -/
theorem get_kdid_for_name_spec_witness :
    get_kdid_for_name [⟨("KEHTETU"), 7⟩] ("KEHTIV") = none ∧
    get_kdid_for_name [⟨("KEHTETU"), 7⟩, ⟨("KEHTIV"), 5⟩] ("KEHTIV") = some 5 := by
  constructor
  · exact (get_kdid_for_name_spec [⟨("KEHTETU"), 7⟩] ("KEHTIV")).1 (by decide)
  · exact (get_kdid_for_name_spec [⟨("KEHTETU"), 7⟩, ⟨("KEHTIV"), 5⟩] ("KEHTIV")).2
      ⟨("KEHTIV"), 5⟩ (by decide)

/-- Partner assignment state of temp_relationships: the Partneri ID
column, as a map from person id to optional partner id. -/
def PartnerMap : Type := Nat → Option Nat

/-- Initial partner state: every Partneri ID is created as None
(step 2 of generate_temp_relatsionships). -/
def initialPartners : PartnerMap := fun _ => none

/-- Symmetric link step of the married-couple matching:
p1.partner := p2, p2.partner := p1. -/
def linkPartners (pm : PartnerMap) (x y : Nat) : PartnerMap :=
  fun z => if z = x then some y else if z = y then some x else pm z

/-- Inner loop of the married-couple matching: scan forward for the
first person without a partner. -/
def firstUnpaired (pm : PartnerMap) : List Nat → Option Nat
  | [] => none
  | y :: rest => if pm y = none then some y else firstUnpaired pm rest

/-- Embedding of the married-couple matching loop of
generate_temp_relatsionships (step 4): walk the shuffled list of
married adults; for each person still unpaired, link them with the
first unpaired person further right.  The last list element is never
scanned as the left partner, matching range(len(pp) - 1). -/
def formCouples (pm : PartnerMap) : List Nat → PartnerMap
  | [] => pm
  | [_] => pm
  | x :: y :: rest =>
    let pm' :=
      if pm x = none then
        match firstUnpaired pm (y :: rest) with
        | some z => linkPartners pm x z
        | none => pm
      else pm
    formCouples pm' (y :: rest)

/-- Symmetry of a partner map: if A records B as partner then B records
A. -/
def SymmetricPartners (pm : PartnerMap) : Prop :=
  ∀ a b : Nat, pm a = some b → pm b = some a

/-- Helper: firstUnpaired only returns a person without a partner. -/
theorem firstUnpaired_unpaired (pm : PartnerMap) (l : List Nat) (y : Nat)
    (h : firstUnpaired pm l = some y) : pm y = none := by
  induction l with
  | nil => simp [firstUnpaired] at h
  | cons a rest ih =>
    by_cases ha : pm a = none
    · simp [firstUnpaired, ha] at h
      exact h ▸ ha
    · simp [firstUnpaired, ha] at h
      exact ih h

/-- Helper: linking two currently unpaired persons preserves symmetry. -/
theorem linkPartners_symmetric (pm : PartnerMap) (x y : Nat)
    (hsymm : SymmetricPartners pm) (hx : pm x = none) (hy : pm y = none) :
    SymmetricPartners (linkPartners pm x y) := by
  intro a b hab
  unfold linkPartners at hab ⊢
  by_cases hax : a = x
  · rw [if_pos hax] at hab
    have hb : b = y := by
      injection hab with h
      exact h.symm
    by_cases hbx : b = x
    · rw [if_pos hbx]
      have hya : y = a := by omega
      rw [hya]
    · rw [if_neg hbx, if_pos hb]
      rw [hax]
  · by_cases hay : a = y
    · rw [if_neg hax, if_pos hay] at hab
      have hb : b = x := by
        injection hab with h
        exact h.symm
      rw [if_pos hb, hay]
    · rw [if_neg hax, if_neg hay] at hab
      have hba := hsymm a b hab
      by_cases hbx : b = x
      · rw [hbx, hx] at hba
        cases hba
      · by_cases hby : b = y
        · rw [hby, hy] at hba
          cases hba
        · rw [if_neg hbx, if_neg hby]
          exact hba

/-- Helper: the whole matching loop preserves symmetry. -/
theorem formCouples_preserves_symmetric (l : List Nat) (pm : PartnerMap)
    (hsymm : SymmetricPartners pm) : SymmetricPartners (formCouples pm l) := by
  induction l generalizing pm with
  | nil => exact hsymm
  | cons x rest ih =>
    match rest with
    | [] => exact hsymm
    | y :: rest' =>
      show SymmetricPartners (formCouples _ (y :: rest'))
      apply ih
      by_cases hx : pm x = none
      · simp only [formCouples, hx, if_pos]
        cases hz : firstUnpaired pm (y :: rest') with
        | none => simpa [hz] using hsymm
        | some z =>
          simp only [hz]
          exact linkPartners_symmetric pm x z hsymm hx
            (firstUnpaired_unpaired pm (y :: rest') z hz)
      · simpa [formCouples, hx] using hsymm

/-- Claim C6 (amended): partner references produced by the matching step
of generate_temp_relatsionships are symmetric, starting from the
all-None initial Partneri ID column and for any shuffled list of married
adults. -/
theorem formCouples_symmetric (l : List Nat) :
    SymmetricPartners (formCouples initialPartners l) :=
  formCouples_preserves_symmetric l initialPartners (fun _ _ h => by
    simp [initialPartners] at h)

/-- Witness for claim C6 at a concrete input: with two married adults
the matching links 1 to 2, and symmetry gives 2 back to 1. -/
theorem formCouples_symmetric_witness :
    formCouples initialPartners [1, 2] 2 = some 1 :=
  formCouples_symmetric [1, 2] 1 2 (by decide)

/-- Counterexample for claim C6 as stated: with a single married adult
(an odd pool of Abielus adults), the matching loop leaves that person's
Partneri ID equal to None, so a Married person can lack a partner
reference. -/
theorem formCouples_married_without_partner :
    formCouples initialPartners [1] 1 = none := by
  decide

/-- Embedding of random.randint(lo, hi): an arbitrary draw clamped into
the interval. -/
def randint (lo hi : Nat) (draw : Nat) : Nat := lo + min draw (hi - lo)

/-- Embedding of the child birthdate assignment of
generate_temp_relatsionships (step 8) when the child has at least one
recorded parent with a birth date: the earliest admissible date is the
first parent's birth date plus 365 times the minimum parenthood age,
replaced by now minus one year when it lies beyond now, and the birth
date is drawn between that bound and now minus one year, the two
endpoints swapped into order. -/
def childBirthdateWithParent (now parentBd : Int) (minAge : Nat) (draw : Nat) : Int :=
  let e0 := parentBd + 365 * (minAge : Int)
  let e1 := if now < e0 then now - 365 else e0
  random_date (min e1 (now - 365)) (max e1 (now - 365)) draw

/-- Helper: random_date always lands between its two endpoints, in
either order. -/
theorem random_date_bounds (a b : Int) (draw : Nat) :
    min a b ≤ random_date a b draw ∧ random_date a b draw ≤ max a b := by
  have hd : (0 : Int) ≤ (draw : Int) := Int.natCast_nonneg draw
  dsimp only [random_date]
  split_ifs with h1 h2 h2
  · exact ⟨min_le_right a b, le_max_right a b⟩
  · have h0 : (0 : Int) ≤ min ((draw : Int)) (a - b) := le_min hd (by omega)
    have h4 : min ((draw : Int)) (a - b) ≤ a - b := min_le_right _ _
    constructor
    · have := min_le_right a b
      linarith
    · have := le_max_left a b
      linarith
  · exact ⟨min_le_left a b, le_max_left a b⟩
  · have h0 : (0 : Int) ≤ min ((draw : Int)) (b - a) := le_min hd (by omega)
    have h4 : min ((draw : Int)) (b - a) ≤ b - a := min_le_right _ _
    constructor
    · have := min_le_left a b
      linarith
    · have := le_max_right a b
      linarith

/-- Claim C7 (amended): the child birth date drawn by
generate_temp_relatsionships lies between the first recorded parent's
birth date plus 365 times the minimum parenthood age (replaced by now
minus one year when that bound lies beyond now) and now minus one year,
the two endpoints swapped into order when the parent is too young.  In
particular the constraint is relative to the first recorded parent, not
the oldest one, and the child is at least (not at most) one year old
whenever the parent is old enough. -/
theorem childBirthdateWithParent_bounds (now parentBd : Int) (minAge draw : Nat) :
    min (if now < parentBd + 365 * (minAge : Int) then now - 365
        else parentBd + 365 * (minAge : Int)) (now - 365)
      ≤ childBirthdateWithParent now parentBd minAge draw ∧
    childBirthdateWithParent now parentBd minAge draw
      ≤ max (if now < parentBd + 365 * (minAge : Int) then now - 365
        else parentBd + 365 * (minAge : Int)) (now - 365) := by
  dsimp only [childBirthdateWithParent]
  have h := random_date_bounds
    (min (if now < parentBd + 365 * (minAge : Int) then now - 365
      else parentBd + 365 * (minAge : Int)) (now - 365))
    (max (if now < parentBd + 365 * (minAge : Int) then now - 365
      else parentBd + 365 * (minAge : Int)) (now - 365)) draw
  rw [min_eq_left min_le_max, max_eq_right min_le_max] at h
  exact h

/-- Counterexample for claim C7 as stated: with now = day 20000, a first
parent born on day 0 and the default minimum age 18, the drawn birth
date can be day 6570, more than a year before now, although both claimed
bounds (at least 18 years younger than the oldest parent, at most one
year old) are simultaneously satisfiable here, so the too-young clamp
does not apply; the code in fact makes such a child at least one year
old, not at most. -/
theorem childBirthdateWithParent_counterexample :
    childBirthdateWithParent 20000 0 18 0 = 6570 ∧
    childBirthdateWithParent 20000 0 18 0 < 20000 - 365 ∧
    (0 : Int) + 365 * 18 ≤ 20000 - 365 := by
  refine ⟨by decide, by decide, by decide⟩

/-- Embedding of the child birthdate fallback of
generate_temp_relatsionships (steps 8 and, identically, the no-parents
branch): birth = datetime.now() minus 365 times randint(1, 17) days.
The wall clock enters as the explicit argument now. -/
def childBirthdateNoParents (now : Int) (draw : Nat) : Int :=
  now - 365 * ((randint 1 17 draw : Nat) : Int)

/-- Claim C5: generate_temp_relatsionships reads datetime.now(), so two
runs with the same seed and inputs (hence the same draw) started one
year apart assign different birth dates; the pipeline output is not a
function of seed and inputs alone.  This theorem evaluates the embedded
code at the failing input. -/
theorem childBirthdateNoParents_now_dependent :
    childBirthdateNoParents 0 0 ≠ childBirthdateNoParents 365 0 := by
  decide

/-- Pair of running counters of generate_isikuaadress: iadr_counter and
doc_id_counter (lines 70-71 of isikuaadress.py). -/
structure Counters where
  iadr : Nat
  doc : Nat
deriving DecidableEq

/-- Both counters start at 1. -/
def initialCounters : Counters := ⟨1, 1⟩

/-- Embedding of random.choice over a list: pick the entry at the drawn
index.  The library call raises on an empty list; callers of the source
always pass a non-empty pool, so the empty case yields a dummy 0. -/
def listChoice (l : List Nat) (draw : Nat) : Nat := l.getD (draw % l.length) 0

/-- Address selection for a non-final period of generate_isikuaadress:
when ensure_new_address is set and a previous address exists, choose
among the other addresses unless none remains. -/
def chooseAddress (possible : List Nat) (ensure : Bool) (prev : Option Nat) (draw : Nat) :
    Nat :=
  match prev with
  | some p =>
    if ensure then
      listChoice
        (if (possible.filter (fun a => a != p)).isEmpty then possible
         else possible.filter (fun a => a != p)) draw
    else listChoice possible draw
  | none => listChoice possible draw

/-- Static inputs of the per-adult timeline construction of
generate_isikuaadress: the codebook, the address pool, the
ensure_new_address flag, the earliest/latest dates, and the random draws
for period ends and address picks (one oracle value per loop index). -/
structure TimelineParams where
  kd : List KdRow
  possible : List Nat
  ensure : Bool
  earliest : Int
  latest : Int
  drawEnd : Nat → Nat
  drawAdr : Nat → Nat

/-- End date of a non-final period of generate_isikuaadress: a drawn
date up to latest_date, floored to the day after the current start when
the draw would land earlier. -/
def periodEndOf (P : TimelineParams) (currentStart : Int) (idx : Nat) : Int :=
  let r := random_date currentStart P.latest (P.drawEnd idx)
  if r < currentStart then currentStart + 1 else r

/-- Loop of step 2 of generate_isikuaadress: build the address periods
of one adult.  Arguments after the parameter block: loop index, number
of remaining periods, current start date, previous address, counters.
Every non-final period gets a drawn end date with a one-day floor and
the next period starts the following day; the final period (one
remaining) is open and uses the person's final address; status and kind
codes are derived from whether the period is open, exactly as the
source's is_last branching does. -/
def buildLoop (P : TimelineParams) (pid finalAdr : Nat) :
    Nat → Nat → Int → Option Nat → Counters → List IRec × Counters
  | _, 0, _, _, c => ([], c)
  | _, 1, currentStart, _, c =>
    ([⟨c.iadr, finalAdr, pid, currentStart, none, get_kdid_for_name P.kd ("ELUKOHT"),
      get_kdid_for_name P.kd ("KEHTIV"), some c.doc, none, none⟩],
     ⟨c.iadr + 1, c.doc + 1⟩)
  | idx, Nat.succ (Nat.succ rem), currentStart, prev, c =>
    let e := periodEndOf P currentStart idx
    let adr := chooseAddress P.possible P.ensure prev (P.drawAdr idx)
    let r0 : IRec := ⟨c.iadr, adr, pid, currentStart, some e,
      get_kdid_for_name P.kd ("ENDINE ELUKOHT"), get_kdid_for_name P.kd ("KEHTETU"),
      some c.doc, none, none⟩
    let step := buildLoop P pid finalAdr (idx + 1) (Nat.succ rem) (e + 1) (some adr)
      ⟨c.iadr + 1, c.doc + 1⟩
    (r0 :: step.1, step.2)

/-- Initial linking pass of generate_isikuaadress (lines 169-171): each
period's IAdrIDJargmine and DokIDLopuAlus point at the following
period. -/
def linkTimeline : List IRec → List IRec
  | [] => []
  | [r] => [r]
  | r :: s :: rest =>
    { r with jargmine := some s.iadrID, dokIDLopuAlus := s.dokIDAlus } :: linkTimeline (s :: rest)

/-- Timeline of one adult before death truncation: built periods with
the initial links, threading the counters. -/
def buildAdultTimeline (P : TimelineParams) (pid finalAdr k : Nat) (c : Counters) :
    List IRec × Counters :=
  let step := buildLoop P pid finalAdr 0 k P.earliest none c
  (linkTimeline step.1, step.2)

/-- Timeline of one adult after the death truncation of step 2. -/
def adultTimelinePost (P : TimelineParams) (pid finalAdr k : Nat) (death : Option Int)
    (c : Counters) : List IRec × Counters :=
  let step := buildAdultTimeline P pid finalAdr k c
  (adjust_timeline_for_death P.kd step.1 death, step.2)

/-- Copy loop of step 3 of generate_isikuaadress: each parent period is
copied verbatim (same address, dates and codes) into a fresh record
owned by the child, advancing both counters. -/
def copyLoop (childId : Nat) : List IRec → Counters → List IRec × Counters
  | [], c => ([], c)
  | pt :: rest, c =>
    let nr : IRec := ⟨c.iadr, pt.adrID, childId, pt.alates, pt.kuni, pt.liik, pt.staatus,
      some c.doc, none, none⟩
    let step := copyLoop childId rest ⟨c.iadr + 1, c.doc + 1⟩
    (nr :: step.1, step.2)

/-- Child timeline copy of step 3: copied records with the in-loop
linking, which equals the initial linking pass over the copies. -/
def copyChildTimeline (parentTl : List IRec) (childId : Nat) (c : Counters) :
    List IRec × Counters :=
  let step := copyLoop childId parentTl c
  (linkTimeline step.1, step.2)

/-- Family arrival propagation of step 4: raise the first period's start
date to the family arrival date when it starts earlier. -/
def applyArrival (arrival : Option Int) (tl : List IRec) : List IRec :=
  match arrival, tl with
  | some a, r :: rest => if r.alates < a then { r with alates := a } :: rest else r :: rest
  | _, l => l

/-- Apply a function to the last element of a list, as the source does
to tml[-1]. -/
def modifyLast (f : IRec → IRec) : List IRec → List IRec
  | [] => []
  | [r] => [f r]
  | r :: s :: rest => r :: modifyLast f (s :: rest)

/-- Family departure clamp of step 4: a last period that is open or ends
after the family departure is cut to the departure date and marked
KEHTETU / ENDINE ELUKOHT. -/
def departureClamp (kd : List KdRow) (dp : Int) (r : IRec) : IRec :=
  let kk := get_kdid_for_name kd ("KEHTETU")
  let ke := get_kdid_for_name kd ("ENDINE ELUKOHT")
  match r.kuni with
  | none => { r with kuni := some dp, staatus := kk, liik := ke }
  | some e =>
    if dp < e then { r with kuni := some dp, staatus := kk, liik := ke } else r

/-- Family departure propagation of step 4, applied to the last period
of a non-empty timeline. -/
def applyDeparture (kd : List KdRow) (dep : Option Int) (tl : List IRec) : List IRec :=
  match dep with
  | none => tl
  | some dp => modifyLast (departureClamp kd dp) tl

/-- Keep condition of remove_invalid_and_relink: a period is kept when
its end is null or not before its start. -/
def validRecB (r : IRec) : Bool :=
  match r.kuni with
  | none => true
  | some e => decide (r.alates ≤ e)

/-- Relinking pass of remove_invalid_and_relink: pointers of consecutive
survivors are rebuilt and the last survivor's pointers are nulled. -/
def relinkAll : List IRec → List IRec
  | [] => []
  | [r] => [{ r with jargmine := none, dokIDLopuAlus := none }]
  | r :: s :: rest =>
    { r with jargmine := some s.iadrID, dokIDLopuAlus := s.dokIDAlus } :: relinkAll (s :: rest)

/-- Embedding of remove_invalid_and_relink (step 5 of
generate_isikuaadress): drop periods with start after end, then
relink. -/
def remove_invalid_and_relink (tl : List IRec) : List IRec :=
  relinkAll (tl.filter validRecB)

/-- Steps 4 and 5 of generate_isikuaadress for one person: family
arrival and departure propagation followed by invalid-period removal
and relinking.  The audit-date pass of step 6 and the global
renumbering touch no start/end date, so the per-person date content of
the returned table is this function's output. -/
def personFinal (kd : List KdRow) (arrival dep : Option Int) (tl : List IRec) : List IRec :=
  remove_invalid_and_relink (applyDeparture kd dep (applyArrival arrival tl))

/-- Full per-person pipeline of generate_isikuaadress for an adult:
build, link, death truncation, family bounds, removal and relink. -/
def adultFinalTimeline (P : TimelineParams) (pid finalAdr k : Nat) (death : Option Int)
    (arrival dep : Option Int) (c : Counters) : List IRec :=
  personFinal P.kd arrival dep (adultTimelinePost P pid finalAdr k death c).1

/-- Full per-person pipeline of generate_isikuaadress for a child:
copy of the chosen parent's death-truncated timeline, the child's own
death truncation, family bounds, removal and relink. -/
def childFinalTimeline (kd : List KdRow) (parentPost : List IRec) (childId : Nat)
    (c : Counters) (deathChild arrival dep : Option Int) : List IRec :=
  personFinal kd arrival dep
    (adjust_timeline_for_death kd (copyChildTimeline parentPost childId c).1 deathChild)

/-- Number of open periods (null IAdrKehtibKuniKpv) in a timeline. -/
def countOpen (tl : List IRec) : Nat := (tl.filter (fun r => r.kuni.isNone)).length

/-- Validity of one period: the start is not after the end, when an end
exists. -/
def ValidRec (r : IRec) : Prop := ∀ e, r.kuni = some e → r.alates ≤ e

/-- Separation of two periods: the earlier one is closed and ends
strictly before the later one starts. -/
def relSep (a b : IRec) : Prop := ∃ e, a.kuni = some e ∧ e < b.alates

/-- Conclusion of claim C4: in list order (which is start-date order,
as the first conjunct shows) the periods are pairwise non-overlapping:
any earlier period with an end date ends strictly before every later
period starts. -/
def SortedNonOverlap (tl : List IRec) : Prop :=
  List.Pairwise (fun a b => a.alates < b.alates ∧ ∀ e, a.kuni = some e → e < b.alates) tl

/-- Date content of a record: start and end, the fields the timeline
invariants speak about. -/
def dk (r : IRec) : Int × Option Int := (r.alates, r.kuni)

/-- Separation on date pairs, the projection of relSep through dk. -/
def relP (p q : Int × Option Int) : Prop := ∃ e, p.2 = some e ∧ e < q.1

/-- Helper: relSep only reads the date content of its arguments. -/
theorem pairwise_relSep_iff_dk (l : List IRec) :
    List.Pairwise relSep l ↔ List.Pairwise relP (l.map dk) := by
  rw [List.pairwise_map]
  constructor
  · exact fun h => h.imp (fun hab => hab)
  · exact fun h => h.imp (fun hab => hab)

/-- Helper: timelines with the same date content share the separation
invariant. -/
theorem pairwise_relSep_transfer {l l' : List IRec} (h : l.map dk = l'.map dk)
    (hp : List.Pairwise relSep l) : List.Pairwise relSep l' := by
  rw [pairwise_relSep_iff_dk] at hp ⊢
  rw [← h]
  exact hp

/-- Helper: a member of a timeline with the same date content has a date
twin in the other timeline. -/
theorem mem_dk_transfer {l l' : List IRec} (h : l.map dk = l'.map dk) {r : IRec}
    (hr : r ∈ l') : ∃ r0 ∈ l, r0.alates = r.alates ∧ r0.kuni = r.kuni := by
  have hm : dk r ∈ l.map dk := by
    rw [h]
    exact List.mem_map_of_mem dk hr
  obtain ⟨r0, hr0, hdk⟩ := List.mem_map.1 hm
  exact ⟨r0, hr0, congrArg Prod.fst hdk, congrArg Prod.snd hdk⟩

/-- Helper: the initial linking pass leaves every date unchanged. -/
theorem linkTimeline_map_dk : ∀ l : List IRec, (linkTimeline l).map dk = l.map dk
  | [] => rfl
  | [_] => rfl
  | r :: s :: rest => by
    have ih := linkTimeline_map_dk (s :: rest)
    simp only [linkTimeline, List.map_cons] at ih ⊢
    rw [ih]
    rfl

/-- Helper: the relinking pass leaves every date unchanged. -/
theorem relinkAll_map_dk : ∀ l : List IRec, (relinkAll l).map dk = l.map dk
  | [] => rfl
  | [_] => rfl
  | r :: s :: rest => by
    have ih := relinkAll_map_dk (s :: rest)
    simp only [relinkAll, List.map_cons] at ih ⊢
    rw [ih]
    rfl

/-- Helper: the child copy loop reproduces the parent's dates. -/
theorem copyLoop_map_dk (cid : Nat) : ∀ (l : List IRec) (c : Counters),
    ((copyLoop cid l c).1).map dk = l.map dk
  | [], _ => rfl
  | pt :: rest, c => by
    have ih := copyLoop_map_dk cid rest ⟨c.iadr + 1, c.doc + 1⟩
    dsimp only [copyLoop, List.map_cons]
    rw [ih]
    rfl

/-- Helper: a non-final period never ends before it starts. -/
theorem periodEndOf_ge (P : TimelineParams) (s : Int) (idx : Nat) : s ≤ periodEndOf P s idx := by
  dsimp only [periodEndOf]
  split_ifs with h
  · omega
  · exact Int.not_lt.mp h

/-- Helper: every period built from a given start begins no earlier. -/
theorem buildLoop_starts_ge (P : TimelineParams) (pid fa : Nat) :
    ∀ (k idx : Nat) (s : Int) (prev : Option Nat) (c : Counters) (r : IRec),
      r ∈ (buildLoop P pid fa idx k s prev c).1 → s ≤ r.alates
  | 0, _, _, _, _, _ => by
    intro hr
    simp [buildLoop] at hr
  | 1, _, s, _, c, r => by
    intro hr
    simp only [buildLoop, List.mem_singleton] at hr
    rw [hr]
  | Nat.succ (Nat.succ k), idx, s, prev, c, r => by
    intro hr
    dsimp only [buildLoop] at hr
    rcases List.mem_cons.1 hr with h | h
    · rw [h]
    · have ih := buildLoop_starts_ge P pid fa (Nat.succ k) (idx + 1) (periodEndOf P s idx + 1)
        (some (chooseAddress P.possible P.ensure prev (P.drawAdr idx)))
        ⟨c.iadr + 1, c.doc + 1⟩ r h
      have hge := periodEndOf_ge P s idx
      omega

/-- Helper: the built timeline is separated and every period is valid. -/
theorem buildLoop_pairwise_valid (P : TimelineParams) (pid fa : Nat) :
    ∀ (k idx : Nat) (s : Int) (prev : Option Nat) (c : Counters),
      List.Pairwise relSep (buildLoop P pid fa idx k s prev c).1 ∧
      ∀ r ∈ (buildLoop P pid fa idx k s prev c).1, ValidRec r
  | 0, _, _, _, _ => by
    constructor
    · exact List.Pairwise.nil
    · intro r hr
      simp [buildLoop] at hr
  | 1, _, s, _, c => by
    constructor
    · simp [buildLoop]
    · intro r hr
      simp only [buildLoop, List.mem_singleton] at hr
      intro e he
      rw [hr] at he
      cases he
  | Nat.succ (Nat.succ k), idx, s, prev, c => by
    have ih := buildLoop_pairwise_valid P pid fa (Nat.succ k) (idx + 1) (periodEndOf P s idx + 1)
      (some (chooseAddress P.possible P.ensure prev (P.drawAdr idx)))
      ⟨c.iadr + 1, c.doc + 1⟩
    constructor
    · dsimp only [buildLoop]
      rw [List.pairwise_cons]
      refine ⟨fun b hb => ?_, ih.1⟩
      refine ⟨periodEndOf P s idx, rfl, ?_⟩
      have := buildLoop_starts_ge P pid fa (Nat.succ k) (idx + 1) (periodEndOf P s idx + 1)
        (some (chooseAddress P.possible P.ensure prev (P.drawAdr idx)))
        ⟨c.iadr + 1, c.doc + 1⟩ b hb
      omega
    · intro r hr
      dsimp only [buildLoop] at hr
      rcases List.mem_cons.1 hr with h | h
      · intro e he
        rw [h] at he ⊢
        injection he with he2
        have hge := periodEndOf_ge P s idx
        dsimp only
        omega
      · exact ih.2 r h

/-- Helper: the death clamp keeps the start date. -/
theorem deathClamp_alates (d : Int) (kk ke : Option Nat) (r : IRec) :
    (deathClamp d kk ke r).alates = r.alates := by
  cases h : r.kuni with
  | none => simp [deathClamp, h]
  | some e =>
    simp only [deathClamp, h]
    split_ifs <;> rfl

/-- Helper: the death clamp never produces an open period. -/
theorem deathClamp_kuni_isSome (d : Int) (kk ke : Option Nat) (r : IRec) :
    ((deathClamp d kk ke r).kuni).isNone = false := by
  cases h : r.kuni with
  | none => simp [deathClamp, h]
  | some e =>
    simp only [deathClamp, h]
    split_ifs <;> simp [h]

/-- Helper: a period that already ends by the death date is untouched. -/
theorem deathClamp_of_le (d : Int) (kk ke : Option Nat) (r : IRec) (e : Int)
    (h : r.kuni = some e) (hle : e ≤ d) : deathClamp d kk ke r = r := by
  simp only [deathClamp, h]
  rw [if_neg (by omega)]

/-- Helper: every output of the death pass is a clamped kept input. -/
theorem mem_deathFilterMap {d : Int} {kk ke : Option Nat} :
    ∀ {l : List IRec} {r' : IRec}, r' ∈ deathFilterMap d kk ke l →
      ∃ r ∈ l, r.alates ≤ d ∧ r' = deathClamp d kk ke r := by
  intro l
  induction l with
  | nil =>
    intro r' hr'
    simp [deathFilterMap] at hr'
  | cons r rest ih =>
    intro r' hr'
    dsimp only [deathFilterMap] at hr'
    by_cases h : d < r.alates
    · rw [if_pos h] at hr'
      obtain ⟨b, hb, hble, heq⟩ := ih hr'
      exact ⟨b, List.mem_cons_of_mem r hb, hble, heq⟩
    · rw [if_neg h] at hr'
      rcases List.mem_cons.1 hr' with heq | hmem
      · exact ⟨r, List.mem_cons_self r rest, by omega, heq⟩
      · obtain ⟨b, hb, hble, heq⟩ := ih hmem
        exact ⟨b, List.mem_cons_of_mem r hb, hble, heq⟩

/-- Helper: the death pass preserves the separation invariant. -/
theorem deathFilterMap_pairwise (d : Int) (kk ke : Option Nat) :
    ∀ l : List IRec, List.Pairwise relSep l →
      List.Pairwise relSep (deathFilterMap d kk ke l) := by
  intro l
  induction l with
  | nil => intro _; exact List.Pairwise.nil
  | cons r rest ih =>
    intro hp
    rw [List.pairwise_cons] at hp
    dsimp only [deathFilterMap]
    by_cases h : d < r.alates
    · rw [if_pos h]
      exact ih hp.2
    · rw [if_neg h]
      rw [List.pairwise_cons]
      refine ⟨fun b' hb' => ?_, ih hp.2⟩
      obtain ⟨b, hbmem, hble, heq⟩ := mem_deathFilterMap hb'
      obtain ⟨e, hre, helt⟩ := hp.1 b hbmem
      have hclamp : deathClamp d kk ke r = r :=
        deathClamp_of_le d kk ke r e hre (by omega)
      rw [hclamp, heq]
      exact ⟨e, hre, by rw [deathClamp_alates]; omega⟩

/-- Helper: counting open periods, cons form. -/
theorem countOpen_cons (r : IRec) (l : List IRec) :
    countOpen (r :: l) = (if (r.kuni).isNone then 1 else 0) + countOpen l := by
  by_cases h : (r.kuni).isNone
  · simp [countOpen, List.filter_cons, h, Nat.add_comm]
  · simp [countOpen, List.filter_cons, h]

/-- Helper: countOpen only reads the date content. -/
theorem countOpen_eq_dk (l : List IRec) :
    countOpen l = ((l.map dk).filter (fun p => (p.2).isNone)).length := by
  induction l with
  | nil => rfl
  | cons r rest ih =>
    rw [countOpen_cons]
    by_cases h : (r.kuni).isNone
    · simp [List.filter_cons, dk, h, ih, Nat.add_comm]
    · simp [List.filter_cons, dk, h, ih]

/-- Helper: timelines with the same date content have the same number of
open periods. -/
theorem countOpen_congr {l l' : List IRec} (h : l.map dk = l'.map dk) :
    countOpen l = countOpen l' := by
  rw [countOpen_eq_dk, countOpen_eq_dk, h]

/-- Helper: the death pass cannot increase the number of open periods. -/
theorem deathFilterMap_countOpen_le (d : Int) (kk ke : Option Nat) :
    ∀ l : List IRec, countOpen (deathFilterMap d kk ke l) ≤ countOpen l := by
  intro l
  induction l with
  | nil => exact Nat.le_refl 0
  | cons r rest ih =>
    dsimp only [deathFilterMap]
    by_cases h : d < r.alates
    · rw [if_pos h, countOpen_cons]
      split_ifs <;> omega
    · rw [if_neg h, countOpen_cons, countOpen_cons]
      simp only [deathClamp_kuni_isSome, Bool.false_eq_true, if_false]
      split_ifs <;> omega

/-- Helper: equation form of the arrival raise on a non-empty timeline. -/
theorem applyArrival_cons (a : Int) (r : IRec) (rest : List IRec) :
    applyArrival (some a) (r :: rest) =
      (if r.alates < a then { r with alates := a } else r) :: rest := by
  dsimp only [applyArrival]
  split_ifs <;> rfl

/-- Helper: the arrival raise preserves the separation invariant. -/
theorem applyArrival_pairwise (a : Option Int) (l : List IRec)
    (hp : List.Pairwise relSep l) : List.Pairwise relSep (applyArrival a l) := by
  cases a with
  | none => exact hp
  | some a =>
    cases l with
    | nil => exact hp
    | cons r rest =>
      rw [applyArrival_cons]
      rw [List.pairwise_cons] at hp ⊢
      refine ⟨fun b hb => ?_, hp.2⟩
      obtain ⟨e, hre, helt⟩ := hp.1 b hb
      split_ifs
      · exact ⟨e, hre, helt⟩
      · exact ⟨e, hre, helt⟩

/-- Helper: the arrival raise does not change any end date, hence keeps
the number of open periods. -/
theorem applyArrival_countOpen (a : Option Int) (l : List IRec) :
    countOpen (applyArrival a l) = countOpen l := by
  cases a with
  | none => rfl
  | some a =>
    cases l with
    | nil => rfl
    | cons r rest =>
      rw [applyArrival_cons]
      split_ifs
      · rw [countOpen_cons, countOpen_cons]
      · rfl

/-- Helper: members of modifyLast are members or the image of the last
member. -/
theorem mem_modifyLast (f : IRec → IRec) :
    ∀ (l : List IRec) (r' : IRec), r' ∈ modifyLast f l →
      r' ∈ l ∨ ∃ r ∈ l, r' = f r
  | [], _ => by
    intro hr
    simp [modifyLast] at hr
  | [r], r' => by
    intro hr
    simp only [modifyLast, List.mem_singleton] at hr
    exact Or.inr ⟨r, List.mem_singleton_self r, hr⟩
  | r :: s :: rest, r' => by
    intro hr
    dsimp only [modifyLast] at hr
    rcases List.mem_cons.1 hr with heq | hmem
    · exact Or.inl (heq ▸ List.mem_cons_self r (s :: rest))
    · rcases mem_modifyLast f (s :: rest) r' hmem with h | ⟨b, hb, heq⟩
      · exact Or.inl (List.mem_cons_of_mem r h)
      · exact Or.inr ⟨b, List.mem_cons_of_mem r hb, heq⟩

/-- Helper: modifyLast preserves the separation invariant whenever the
function cannot break it on the right side. -/
theorem modifyLast_pairwise (f : IRec → IRec)
    (hf : ∀ x y : IRec, relSep x y → relSep x (f y)) :
    ∀ l : List IRec, List.Pairwise relSep l → List.Pairwise relSep (modifyLast f l)
  | [] => fun _ => List.Pairwise.nil
  | [r] => fun _ => List.pairwise_singleton relSep (f r)
  | r :: s :: rest => by
    intro hp
    rw [List.pairwise_cons] at hp
    dsimp only [modifyLast]
    rw [List.pairwise_cons]
    refine ⟨fun b hb => ?_, modifyLast_pairwise f hf (s :: rest) hp.2⟩
    rcases mem_modifyLast f (s :: rest) b hb with h | ⟨y, hy, heq⟩
    · exact hp.1 b h
    · exact heq ▸ hf r y (hp.1 y hy)

/-- Helper: the departure clamp keeps the start date. -/
theorem departureClamp_alates (kd : List KdRow) (dp : Int) (r : IRec) :
    (departureClamp kd dp r).alates = r.alates := by
  cases h : r.kuni with
  | none => simp [departureClamp, h]
  | some e =>
    simp only [departureClamp, h]
    split_ifs <;> rfl

/-- Helper: the departure clamp never produces an open period. -/
theorem departureClamp_kuni_isSome (kd : List KdRow) (dp : Int) (r : IRec) :
    ((departureClamp kd dp r).kuni).isNone = false := by
  cases h : r.kuni with
  | none => simp [departureClamp, h]
  | some e =>
    simp only [departureClamp, h]
    split_ifs <;> simp [h]

/-- Helper: the departure pass preserves the separation invariant. -/
theorem applyDeparture_pairwise (kd : List KdRow) (dep : Option Int) (l : List IRec)
    (hp : List.Pairwise relSep l) : List.Pairwise relSep (applyDeparture kd dep l) := by
  cases dep with
  | none => exact hp
  | some dp =>
    refine modifyLast_pairwise (departureClamp kd dp) (fun x y hxy => ?_) l hp
    obtain ⟨e, hx, helt⟩ := hxy
    exact ⟨e, hx, by rw [departureClamp_alates]; omega⟩

/-- Helper: modifyLast cannot increase the number of open periods when
the function never opens a period. -/
theorem modifyLast_countOpen_le (f : IRec → IRec)
    (hf : ∀ r : IRec, ((f r).kuni).isNone = true → ((r.kuni).isNone) = true) :
    ∀ l : List IRec, countOpen (modifyLast f l) ≤ countOpen l
  | [] => Nat.le_refl 0
  | [r] => by
    dsimp only [modifyLast]
    rw [countOpen_cons, countOpen_cons]
    by_cases h : ((f r).kuni).isNone
    · rw [if_pos h, if_pos (hf r h)]
    · rw [if_neg h]
      split_ifs <;> omega
  | r :: s :: rest => by
    dsimp only [modifyLast]
    rw [countOpen_cons, countOpen_cons]
    have := modifyLast_countOpen_le f hf (s :: rest)
    omega

/-- Helper: the departure pass cannot increase the number of open
periods. -/
theorem applyDeparture_countOpen_le (kd : List KdRow) (dep : Option Int) (l : List IRec) :
    countOpen (applyDeparture kd dep l) ≤ countOpen l := by
  cases dep with
  | none => exact Nat.le_refl _
  | some dp =>
    refine modifyLast_countOpen_le (departureClamp kd dp) (fun r h => ?_) l
    rw [departureClamp_kuni_isSome] at h
    cases h

/-- Helper: the keep condition of the removal pass is exactly period
validity. -/
theorem validRecB_iff (r : IRec) : validRecB r = true ↔ ValidRec r := by
  cases h : r.kuni with
  | none =>
    simp only [validRecB, h]
    constructor
    · intro _ e he
      rw [h] at he
      cases he
    · intro _
      trivial
  | some e =>
    simp only [validRecB, h, decide_eq_true_eq]
    constructor
    · intro hle e' he'
      rw [h] at he'
      injection he' with he2
      omega
    · intro hv
      exact hv e h

/-- Helper: the removal filter keeps every open period, so it keeps the
number of open periods. -/
theorem countOpen_filter_validRecB (l : List IRec) :
    countOpen (l.filter validRecB) = countOpen l := by
  induction l with
  | nil => rfl
  | cons r rest ih =>
    rw [countOpen_cons]
    cases hk : r.kuni with
    | none =>
      have hv : validRecB r = true := by simp [validRecB, hk]
      rw [List.filter_cons_of_pos hv, countOpen_cons]
      simp [hk, ih]
    | some e =>
      by_cases hv : validRecB r = true
      · rw [List.filter_cons_of_pos hv, countOpen_cons]
        simp [hk, ih]
      · rw [List.filter_cons_of_neg (by simpa using hv)]
        simp [hk, ih]

/-- Helper: full removal and relinking keeps the number of open
periods. -/
theorem remove_invalid_countOpen (l : List IRec) :
    countOpen (remove_invalid_and_relink l) = countOpen l := by
  unfold remove_invalid_and_relink
  rw [countOpen_congr (relinkAll_map_dk (l.filter validRecB))]
  exact countOpen_filter_validRecB l

/-- Helper: the final per-person pass turns a separated timeline into a
sorted non-overlapping one. -/
theorem personFinal_sortedNonOverlap (kd : List KdRow) (arrival dep : Option Int)
    (tl : List IRec) (hp : List.Pairwise relSep tl) :
    SortedNonOverlap (personFinal kd arrival dep tl) := by
  have hp2 : List.Pairwise relSep (applyDeparture kd dep (applyArrival arrival tl)) :=
    applyDeparture_pairwise kd dep _ (applyArrival_pairwise arrival tl hp)
  have hp3 : List.Pairwise relSep
      ((applyDeparture kd dep (applyArrival arrival tl)).filter validRecB) :=
    List.Pairwise.sublist (List.filter_sublist _) hp2
  have hout : List.Pairwise relSep (personFinal kd arrival dep tl) := by
    unfold personFinal remove_invalid_and_relink
    exact pairwise_relSep_transfer (relinkAll_map_dk _).symm hp3
  have hvalid : ∀ r ∈ personFinal kd arrival dep tl, ValidRec r := by
    intro r hr
    unfold personFinal remove_invalid_and_relink at hr
    obtain ⟨r0, hr0, ha, hk⟩ := mem_dk_transfer (relinkAll_map_dk _).symm hr
    have hv0 : ValidRec r0 := (validRecB_iff r0).1 (List.of_mem_filter hr0)
    intro e he
    rw [← hk] at he
    have := hv0 e he
    omega
  refine List.Pairwise.imp_of_mem ?_ hout
  intro a b ha hb hab
  obtain ⟨e, hae, helt⟩ := hab
  have hva := hvalid a ha
  have := hva e hae
  constructor
  · omega
  · intro e' he'
    rw [hae] at he'
    injection he' with he2
    omega

/-- Helper: the adult timeline after death truncation satisfies the
separation invariant. -/
theorem adultTimelinePost_pairwise (P : TimelineParams) (pid fa k : Nat)
    (death : Option Int) (c : Counters) :
    List.Pairwise relSep (adultTimelinePost P pid fa k death c).1 := by
  have hb := (buildLoop_pairwise_valid P pid fa k 0 P.earliest none c).1
  have hlink : List.Pairwise relSep (buildAdultTimeline P pid fa k c).1 :=
    pairwise_relSep_transfer (linkTimeline_map_dk _).symm hb
  dsimp only [adultTimelinePost]
  cases death with
  | none => exact hlink
  | some d => exact deathFilterMap_pairwise d _ _ _ hlink

/-- Claim C4: for every person of generate_isikuaadress — an adult with
any drawn period count and draws, or a child copying any parent's
death-truncated timeline — the final intervals are in strictly
increasing start order and pairwise non-overlapping: every earlier
interval with a non-null end ends strictly before each later interval
starts.  This survives death truncation, family arrival/departure
clamping and invalid-interval removal. -/
theorem generate_isikuaadress_nonoverlap (P : TimelineParams) (pid fa k : Nat)
    (death arrival dep : Option Int) (c : Counters) (cid : Nat) (c2 : Counters)
    (deathChild : Option Int) :
    SortedNonOverlap (adultFinalTimeline P pid fa k death arrival dep c) ∧
    SortedNonOverlap (childFinalTimeline P.kd (adultTimelinePost P pid fa k death c).1
      cid c2 deathChild arrival dep) := by
  constructor
  · exact personFinal_sortedNonOverlap P.kd arrival dep _
      (adultTimelinePost_pairwise P pid fa k death c)
  · have hparent := adultTimelinePost_pairwise P pid fa k death c
    have hcopy : List.Pairwise relSep
        (copyChildTimeline (adultTimelinePost P pid fa k death c).1 cid c2).1 := by
      dsimp only [copyChildTimeline]
      refine pairwise_relSep_transfer ?_ hparent
      rw [linkTimeline_map_dk, copyLoop_map_dk]
    have hadj : List.Pairwise relSep
        (adjust_timeline_for_death P.kd
          (copyChildTimeline (adultTimelinePost P pid fa k death c).1 cid c2).1
          deathChild) := by
      cases deathChild with
      | none => exact hcopy
      | some d => exact deathFilterMap_pairwise d _ _ _ hcopy
    exact personFinal_sortedNonOverlap P.kd arrival dep _ hadj

/-- Helper: the built timeline has exactly one open period when at least
one period is built (the final one), and none otherwise. -/
theorem buildLoop_countOpen (P : TimelineParams) (pid fa : Nat) :
    ∀ (k idx : Nat) (s : Int) (prev : Option Nat) (c : Counters),
      countOpen (buildLoop P pid fa idx k s prev c).1 = if k = 0 then 0 else 1
  | 0, _, _, _, _ => rfl
  | 1, _, s, _, c => by
    dsimp only [buildLoop]
    rw [countOpen_cons]
    rfl
  | Nat.succ (Nat.succ k), idx, s, prev, c => by
    dsimp only [buildLoop]
    rw [countOpen_cons]
    have ih := buildLoop_countOpen P pid fa (Nat.succ k) (idx + 1) (periodEndOf P s idx + 1)
      (some (chooseAddress P.possible P.ensure prev (P.drawAdr idx)))
      ⟨c.iadr + 1, c.doc + 1⟩
    rw [ih]
    rfl

/-- Helper: the final per-person pass cannot increase the number of open
periods. -/
theorem personFinal_countOpen_le (kd : List KdRow) (arrival dep : Option Int)
    (tl : List IRec) : countOpen (personFinal kd arrival dep tl) ≤ countOpen tl := by
  unfold personFinal
  rw [remove_invalid_countOpen]
  calc countOpen (applyDeparture kd dep (applyArrival arrival tl))
      ≤ countOpen (applyArrival arrival tl) := applyDeparture_countOpen_le kd dep _
    _ = countOpen tl := applyArrival_countOpen arrival tl

/-- Helper: without a family departure the final pass keeps the number
of open periods exactly. -/
theorem personFinal_countOpen_eq (kd : List KdRow) (arrival : Option Int)
    (tl : List IRec) : countOpen (personFinal kd arrival none tl) = countOpen tl := by
  unfold personFinal
  rw [remove_invalid_countOpen]
  exact applyArrival_countOpen arrival tl

/-- Helper: a death truncation leaves no open period at all: every kept
period is clamped to an end date. -/
theorem deathFilterMap_countOpen_zero (d : Int) (kk ke : Option Nat) :
    ∀ l : List IRec, countOpen (deathFilterMap d kk ke l) = 0 := by
  intro l
  induction l with
  | nil => rfl
  | cons r rest ih =>
    dsimp only [deathFilterMap]
    by_cases h : d < r.alates
    · rw [if_pos h]
      exact ih
    · rw [if_neg h, countOpen_cons]
      simp only [deathClamp_kuni_isSome, Bool.false_eq_true, if_false]
      omega

/-- Helper: clamping the last period of a separated timeline leaves no
open period: every non-last period is closed by separation, and the
last one is closed by the clamp. -/
theorem modifyLast_departureClamp_countOpen_zero (kd : List KdRow) (dp : Int) :
    ∀ l : List IRec, List.Pairwise relSep l →
      countOpen (modifyLast (departureClamp kd dp) l) = 0
  | [] => fun _ => rfl
  | [r] => by
    intro _
    dsimp only [modifyLast]
    rw [countOpen_cons]
    simp only [departureClamp_kuni_isSome, Bool.false_eq_true, if_false]
    rfl
  | r :: s :: rest => by
    intro hp
    rw [List.pairwise_cons] at hp
    obtain ⟨e, hre, _⟩ := hp.1 s (List.mem_cons_self s rest)
    dsimp only [modifyLast]
    rw [countOpen_cons]
    have hr : (r.kuni).isNone = false := by
      rw [hre]
      rfl
    rw [hr]
    simp only [Bool.false_eq_true, if_false]
    have := modifyLast_departureClamp_countOpen_zero kd dp (s :: rest) hp.2
    omega

/-- Helper: with a family departure date the final per-person pass
leaves no open period on a separated timeline. -/
theorem personFinal_countOpen_zero_dep (kd : List KdRow) (arrival : Option Int) (dp : Int)
    (tl : List IRec) (hp : List.Pairwise relSep tl) :
    countOpen (personFinal kd arrival (some dp) tl) = 0 := by
  unfold personFinal
  rw [remove_invalid_countOpen]
  exact modifyLast_departureClamp_countOpen_zero kd dp _ (applyArrival_pairwise arrival tl hp)

/-- Helper: the child's death-truncated copy of the parent timeline
satisfies the separation invariant. -/
theorem childAdjusted_pairwise (P : TimelineParams) (pid fa k : Nat) (death : Option Int)
    (c : Counters) (cid : Nat) (c2 : Counters) (deathChild : Option Int) :
    List.Pairwise relSep (adjust_timeline_for_death P.kd
      (copyChildTimeline (adultTimelinePost P pid fa k death c).1 cid c2).1 deathChild) := by
  have hparent := adultTimelinePost_pairwise P pid fa k death c
  have hcopy : List.Pairwise relSep
      (copyChildTimeline (adultTimelinePost P pid fa k death c).1 cid c2).1 := by
    dsimp only [copyChildTimeline]
    refine pairwise_relSep_transfer ?_ hparent
    rw [linkTimeline_map_dk, copyLoop_map_dk]
  cases deathChild with
  | none => exact hcopy
  | some d => exact deathFilterMap_pairwise d _ _ _ hcopy

/-- Claim C1 (amended): every person of generate_isikuaadress ends with
AT MOST one open interval (null IAdrKehtibKuniKpv).  A death date leaves
ZERO open intervals (every kept period is clamped), and so does a family
departure date, for adults and child copies alike; and for an adult with
at least one built period, the returned timeline has exactly one open
interval IF AND ONLY IF the person has no death date and the family has
no departure date. -/
theorem generate_isikuaadress_open_count (P : TimelineParams) (pid fa k : Nat)
    (death arrival dep : Option Int) (c : Counters) (cid : Nat) (c2 : Counters)
    (deathChild : Option Int) :
    countOpen (adultFinalTimeline P pid fa k death arrival dep c) ≤ 1 ∧
    countOpen (childFinalTimeline P.kd (adultTimelinePost P pid fa k death c).1
      cid c2 deathChild arrival dep) ≤ 1 ∧
    (∀ d : Int, death = some d →
      countOpen (adultFinalTimeline P pid fa k death arrival dep c) = 0) ∧
    (∀ dp : Int, dep = some dp →
      countOpen (adultFinalTimeline P pid fa k death arrival dep c) = 0) ∧
    (∀ d : Int, deathChild = some d →
      countOpen (childFinalTimeline P.kd (adultTimelinePost P pid fa k death c).1
        cid c2 deathChild arrival dep) = 0) ∧
    (∀ dp : Int, dep = some dp →
      countOpen (childFinalTimeline P.kd (adultTimelinePost P pid fa k death c).1
        cid c2 deathChild arrival dep) = 0) ∧
    (1 ≤ k →
      (countOpen (adultFinalTimeline P pid fa k death arrival dep c) = 1 ↔
        death = none ∧ dep = none)) := by
  have hbuild := buildLoop_countOpen P pid fa k 0 P.earliest none c
  have hlinked : countOpen (buildAdultTimeline P pid fa k c).1 = if k = 0 then 0 else 1 := by
    dsimp only [buildAdultTimeline]
    rw [countOpen_congr (linkTimeline_map_dk _)]
    exact hbuild
  have hpost : countOpen (adultTimelinePost P pid fa k death c).1 ≤ 1 := by
    dsimp only [adultTimelinePost]
    cases death with
    | none =>
      rw [show adjust_timeline_for_death P.kd (buildAdultTimeline P pid fa k c).1 none
        = (buildAdultTimeline P pid fa k c).1 from rfl, hlinked]
      split_ifs <;> omega
    | some d =>
      calc countOpen (adjust_timeline_for_death P.kd (buildAdultTimeline P pid fa k c).1
            (some d))
          ≤ countOpen (buildAdultTimeline P pid fa k c).1 :=
            deathFilterMap_countOpen_le d _ _ _
        _ ≤ 1 := by rw [hlinked]; split_ifs <;> omega
  have hchild : countOpen (childFinalTimeline P.kd (adultTimelinePost P pid fa k death c).1
      cid c2 deathChild arrival dep) ≤ 1 := by
    have hc : countOpen (copyChildTimeline (adultTimelinePost P pid fa k death c).1 cid c2).1
        = countOpen (adultTimelinePost P pid fa k death c).1 := by
      dsimp only [copyChildTimeline]
      rw [countOpen_congr (linkTimeline_map_dk _)]
      exact countOpen_congr (copyLoop_map_dk cid _ c2)
    have hadj : countOpen (adjust_timeline_for_death P.kd
        (copyChildTimeline (adultTimelinePost P pid fa k death c).1 cid c2).1 deathChild)
        ≤ 1 := by
      cases deathChild with
      | none => exact le_trans (le_of_eq hc) hpost
      | some d =>
        calc countOpen (adjust_timeline_for_death P.kd _ (some d))
            ≤ countOpen (copyChildTimeline (adultTimelinePost P pid fa k death c).1 cid c2).1 :=
              deathFilterMap_countOpen_le d _ _ _
          _ ≤ 1 := by rw [hc]; exact hpost
    exact le_trans (personFinal_countOpen_le P.kd arrival dep _) hadj
  have hdz : ∀ d : Int, death = some d →
      countOpen (adultFinalTimeline P pid fa k death arrival dep c) = 0 := by
    intro d hd
    subst hd
    dsimp only [adultFinalTimeline, adultTimelinePost]
    have h0 : countOpen (adjust_timeline_for_death P.kd (buildAdultTimeline P pid fa k c).1
        (some d)) = 0 := deathFilterMap_countOpen_zero d _ _ _
    have hle := personFinal_countOpen_le P.kd arrival dep
      (adjust_timeline_for_death P.kd (buildAdultTimeline P pid fa k c).1 (some d))
    omega
  have hpz : ∀ dp : Int, dep = some dp →
      countOpen (adultFinalTimeline P pid fa k death arrival dep c) = 0 := by
    intro dp hdp
    subst hdp
    dsimp only [adultFinalTimeline]
    exact personFinal_countOpen_zero_dep P.kd arrival dp _
      (adultTimelinePost_pairwise P pid fa k death c)
  have hczd : ∀ d : Int, deathChild = some d →
      countOpen (childFinalTimeline P.kd (adultTimelinePost P pid fa k death c).1
        cid c2 deathChild arrival dep) = 0 := by
    intro d hd
    subst hd
    dsimp only [childFinalTimeline]
    have h0 : countOpen (adjust_timeline_for_death P.kd
        (copyChildTimeline (adultTimelinePost P pid fa k death c).1 cid c2).1 (some d)) = 0 :=
      deathFilterMap_countOpen_zero d _ _ _
    have hle := personFinal_countOpen_le P.kd arrival dep (adjust_timeline_for_death P.kd
      (copyChildTimeline (adultTimelinePost P pid fa k death c).1 cid c2).1 (some d))
    omega
  have hczp : ∀ dp : Int, dep = some dp →
      countOpen (childFinalTimeline P.kd (adultTimelinePost P pid fa k death c).1
        cid c2 deathChild arrival dep) = 0 := by
    intro dp hdp
    subst hdp
    dsimp only [childFinalTimeline]
    exact personFinal_countOpen_zero_dep P.kd arrival dp _
      (childAdjusted_pairwise P pid fa k death c cid c2 deathChild)
  have hone : death = none → dep = none → 1 ≤ k →
      countOpen (adultFinalTimeline P pid fa k death arrival dep c) = 1 := by
    intro hd hdep hk
    subst hd
    subst hdep
    dsimp only [adultFinalTimeline, adultTimelinePost]
    rw [show adjust_timeline_for_death P.kd (buildAdultTimeline P pid fa k c).1 none
      = (buildAdultTimeline P pid fa k c).1 from rfl]
    rw [personFinal_countOpen_eq, hlinked, if_neg (by omega)]
  refine ⟨le_trans (personFinal_countOpen_le P.kd arrival dep _) hpost, hchild,
    hdz, hpz, hczd, hczp, ?_⟩
  intro hk
  constructor
  · intro h1
    refine ⟨?_, ?_⟩
    · cases death with
      | none => rfl
      | some d =>
        exfalso
        have h0 := hdz d rfl
        omega
    · cases dep with
      | none => rfl
      | some dp =>
        exfalso
        have h0 := hpz dp rfl
        omega
  · rintro ⟨hd, hdep⟩
    exact hone hd hdep hk

/-- Concrete four-code codebook used by the concrete evaluations. -/
def kd0 : List KdRow :=
  [⟨("KEHTIV"), 1⟩, ⟨("KEHTETU"), 2⟩, ⟨("ELUKOHT"), 3⟩, ⟨("ENDINE ELUKOHT"), 4⟩]

/-- Concrete timeline parameters: address pool of two, earliest date
day 0, latest day 1000, every period-end draw 100 days, every address
draw index 0. -/
def P0 : TimelineParams := ⟨kd0, [10, 20], true, 0, 1000, fun _ => 100, fun _ => 0⟩

/-- Witness for claim C1 at a concrete adult: one period, no death, no
departure: exactly one open interval. -/
theorem generate_isikuaadress_open_count_witness :
    countOpen (adultFinalTimeline P0 1 30 1 none none none initialCounters) = 1 :=
  ((generate_isikuaadress_open_count P0 1 30 1 none none none initialCounters 5
    initialCounters none).2.2.2.2.2.2 (by decide)).mpr ⟨rfl, rfl⟩

/-- Counterexample for claim C1 as stated: an adult with one period and
a death date (day 500) keeps one interval in the returned table, but
its end is clamped to the death date, so NO interval of that person has
a null end date, refuting the claimed exactly-one even under a death
date. -/
theorem generate_isikuaadress_open_count_counterexample :
    adultFinalTimeline P0 1 30 1 (some 500) none none initialCounters ≠ [] ∧
    countOpen (adultFinalTimeline P0 1 30 1 (some 500) none none initialCounters) = 0 := by
  decide

/-- Helper: after the arrival raise (and a possible departure clamp,
which keeps start dates), a non-empty timeline's head starts no earlier
than the family arrival date. -/
theorem arrival_head_ge (kd : List KdRow) (dep : Option Int) (a : Int) (tl : List IRec)
    (r0 : IRec) (rest' : List IRec)
    (h : applyDeparture kd dep (applyArrival (some a) tl) = r0 :: rest') :
    a ≤ r0.alates := by
  cases tl with
  | nil =>
    exfalso
    cases dep with
    | none => cases h
    | some dp => cases h
  | cons r rest =>
    rw [applyArrival_cons] at h
    have hr1 : a ≤ ((if r.alates < a then { r with alates := a } else r) : IRec).alates := by
      split_ifs with hh
      · exact le_refl a
      · exact Int.not_lt.mp hh
    cases dep with
    | none =>
      dsimp only [applyDeparture] at h
      rw [List.cons.injEq] at h
      rw [← h.1]
      exact hr1
    | some dp =>
      dsimp only [applyDeparture] at h
      cases rest with
      | nil =>
        dsimp only [modifyLast] at h
        rw [List.cons.injEq] at h
        rw [← h.1, departureClamp_alates]
        exact hr1
      | cons s rest2 =>
        dsimp only [modifyLast] at h
        rw [List.cons.injEq] at h
        rw [← h.1]
        exact hr1

/-- Helper: on any separated timeline whose head survives the removal
pass after the family clamps, every surviving interval starts no
earlier than the family arrival date. -/
theorem personFinal_arrival_bound (kd : List KdRow) (a : Int) (dep : Option Int)
    (tl : List IRec) (hp : List.Pairwise relSep tl) (r0 : IRec) (rest' : List IRec)
    (hpre : applyDeparture kd dep (applyArrival (some a) tl) = r0 :: rest')
    (hvalid : validRecB r0 = true) :
    ∀ r ∈ personFinal kd (some a) dep tl, a ≤ r.alates := by
  have hpp : List.Pairwise relSep (r0 :: rest') := by
    rw [← hpre]
    exact applyDeparture_pairwise kd dep _ (applyArrival_pairwise (some a) tl hp)
  have hr0a : a ≤ r0.alates := arrival_head_ge kd dep a tl r0 rest' hpre
  intro r hr
  unfold personFinal remove_invalid_and_relink at hr
  rw [hpre] at hr
  obtain ⟨q, hq, hqa, hqk⟩ := mem_dk_transfer (relinkAll_map_dk _).symm hr
  have hq2 : q ∈ r0 :: rest' := List.mem_of_mem_filter hq
  rcases List.mem_cons.1 hq2 with heq | hmem
  · rw [heq] at hqa
    omega
  · obtain ⟨e, hr0e, helt⟩ := (List.pairwise_cons.1 hpp).1 q hmem
    have hval : ValidRec r0 := (validRecB_iff r0).1 hvalid
    have := hval e hr0e
    omega

/-- Claim C2 (amended): for EVERY person of generate_isikuaadress —
adult or child copy — when the family has an arrival date and that
person's originally-first interval (after death truncation and the
family clamps) SURVIVES the invalid-interval removal, every surviving
interval of the person starts no earlier than the family arrival date.
When the first interval is dropped, the bound can fail (see the
counterexample). -/
theorem arrival_bound_first_survives (P : TimelineParams) (pid fa k : Nat)
    (death : Option Int) (a : Int) (dep : Option Int) (c : Counters)
    (cid : Nat) (c2 : Counters) (deathChild : Option Int) :
    (∀ (r0 : IRec) (rest' : List IRec),
      applyDeparture P.kd dep
        (applyArrival (some a) (adultTimelinePost P pid fa k death c).1) = r0 :: rest' →
      validRecB r0 = true →
      ∀ r ∈ adultFinalTimeline P pid fa k death (some a) dep c, a ≤ r.alates) ∧
    (∀ (r0 : IRec) (rest' : List IRec),
      applyDeparture P.kd dep
        (applyArrival (some a) (adjust_timeline_for_death P.kd
          (copyChildTimeline (adultTimelinePost P pid fa k death c).1 cid c2).1 deathChild))
        = r0 :: rest' →
      validRecB r0 = true →
      ∀ r ∈ childFinalTimeline P.kd (adultTimelinePost P pid fa k death c).1 cid c2
        deathChild (some a) dep, a ≤ r.alates) := by
  constructor
  · intro r0 rest' hpre hvalid
    exact personFinal_arrival_bound P.kd a dep _
      (adultTimelinePost_pairwise P pid fa k death c) r0 rest' hpre hvalid
  · intro r0 rest' hpre hvalid
    exact personFinal_arrival_bound P.kd a dep _
      (childAdjusted_pairwise P pid fa k death c cid c2 deathChild) r0 rest' hpre hvalid

/-- Witness for claim C2 at concrete persons: an adult with one open
period raised by the arrival date 50, and a child copy of that adult's
timeline; in both cases the first interval survives and the surviving
interval starts at day 50. -/
theorem arrival_bound_first_survives_witness :
    (50 : Int) ≤ (⟨1, 30, 1, 50, none, some 3, some 1, some 1, none, none⟩ : IRec).alates ∧
    (50 : Int) ≤ (⟨2, 30, 5, 50, none, some 3, some 1, some 2, none, none⟩ : IRec).alates := by
  constructor
  · exact (arrival_bound_first_survives P0 1 30 1 none 50 none initialCounters 5
      ⟨2, 2⟩ none).1
      ⟨1, 30, 1, 50, none, some 3, some 1, some 1, none, none⟩ [] (by decide) (by decide)
      ⟨1, 30, 1, 50, none, some 3, some 1, some 1, none, none⟩ (by decide)
  · exact (arrival_bound_first_survives P0 1 30 1 none 50 none initialCounters 5
      ⟨2, 2⟩ none).2
      ⟨2, 30, 5, 50, none, some 3, some 1, some 2, none, none⟩ [] (by decide) (by decide)
      ⟨2, 30, 5, 50, none, some 3, some 1, some 2, none, none⟩ (by decide)

/-- Counterexample for claim C2 as stated: arrival day 500, two built
periods [0, 100] and [101, open).  The raise moves the first period's
start to 500 > 100, the period is dropped by the removal pass, and the
surviving earliest interval starts at day 101, EARLIER than the family
arrival date 500 — refuting the claim for the dropped-first case it
explicitly includes. -/
theorem arrival_bound_counterexample :
    (adultFinalTimeline P0 1 30 2 none (some 500) none initialCounters).map
      (fun r => r.alates) = [101] ∧ (101 : Int) < 500 := by
  decide

/-- Helper: linking changes only the forward pointers, not the interval
id or opening-document id. -/
theorem mem_linkTimeline_ids :
    ∀ (l : List IRec) (r' : IRec), r' ∈ linkTimeline l →
      ∃ r ∈ l, r'.iadrID = r.iadrID ∧ r'.dokIDAlus = r.dokIDAlus
  | [], _ => by
    intro hr
    simp [linkTimeline] at hr
  | [r], r' => by
    intro hr
    simp only [linkTimeline, List.mem_singleton] at hr
    exact ⟨r, List.mem_singleton_self r, by rw [hr], by rw [hr]⟩
  | r :: s :: rest, r' => by
    intro hr
    dsimp only [linkTimeline] at hr
    rcases List.mem_cons.1 hr with heq | hmem
    · exact ⟨r, List.mem_cons_self r (s :: rest), by rw [heq], by rw [heq]⟩
    · obtain ⟨b, hb, h1, h2⟩ := mem_linkTimeline_ids (s :: rest) r' hmem
      exact ⟨b, List.mem_cons_of_mem r hb, h1, h2⟩

/-- Helper: with equal counters, every built record carries its own
interval id as opening-document id, and the counters stay equal. -/
theorem buildLoop_dok (P : TimelineParams) (pid fa : Nat) :
    ∀ (k idx : Nat) (s : Int) (prev : Option Nat) (c : Counters), c.iadr = c.doc →
      (∀ r ∈ (buildLoop P pid fa idx k s prev c).1, r.dokIDAlus = some r.iadrID) ∧
      (buildLoop P pid fa idx k s prev c).2.iadr = (buildLoop P pid fa idx k s prev c).2.doc
  | 0, _, _, _, c => by
    intro h
    constructor
    · intro r hr
      simp [buildLoop] at hr
    · exact h
  | 1, _, s, _, c => by
    intro h
    constructor
    · intro r hr
      simp only [buildLoop, List.mem_singleton] at hr
      rw [hr, h]
    · dsimp only [buildLoop]
      omega
  | Nat.succ (Nat.succ k), idx, s, prev, c => by
    intro h
    have ih := buildLoop_dok P pid fa (Nat.succ k) (idx + 1) (periodEndOf P s idx + 1)
      (some (chooseAddress P.possible P.ensure prev (P.drawAdr idx)))
      ⟨c.iadr + 1, c.doc + 1⟩ (by dsimp only; omega)
    constructor
    · intro r hr
      dsimp only [buildLoop] at hr
      rcases List.mem_cons.1 hr with heq | hmem
      · rw [heq, h]
      · exact ih.1 r hmem
    · exact ih.2

/-- Helper: with equal counters, every copied child record carries its
own interval id as opening-document id, and the counters stay equal. -/
theorem copyLoop_dok (cid : Nat) :
    ∀ (l : List IRec) (c : Counters), c.iadr = c.doc →
      (∀ r ∈ (copyLoop cid l c).1, r.dokIDAlus = some r.iadrID) ∧
      (copyLoop cid l c).2.iadr = (copyLoop cid l c).2.doc
  | [], c => by
    intro h
    constructor
    · intro r hr
      simp [copyLoop] at hr
    · exact h
  | pt :: rest, c => by
    intro h
    have ih := copyLoop_dok cid rest ⟨c.iadr + 1, c.doc + 1⟩ (by dsimp only; omega)
    constructor
    · intro r hr
      dsimp only [copyLoop] at hr
      rcases List.mem_cons.1 hr with heq | hmem
      · rw [heq, h]
      · exact ih.1 r hmem
    · exact ih.2

/-- Claim C10: inside generate_isikuaadress every record — adult-built
or child-copied — is created with its opening-document id equal to its
own interval id (DokIDAlus = IAdrID), because the interval-id and
document-id counters start equal (both at 1) and each advances exactly
once per record; the counters leave each person equal again.  This is
what makes the final remapping of DokIDAlus and DokIDLopuAlus through
the interval-id map well defined. -/
theorem dokIDAlus_eq_iadrID (P : TimelineParams) (pid fa k : Nat) (c : Counters)
    (tl : List IRec) (cid : Nat) (c2 : Counters)
    (h : c.iadr = c.doc) (h2 : c2.iadr = c2.doc) :
    (∀ r ∈ (buildAdultTimeline P pid fa k c).1, r.dokIDAlus = some r.iadrID) ∧
    (buildAdultTimeline P pid fa k c).2.iadr = (buildAdultTimeline P pid fa k c).2.doc ∧
    (∀ r ∈ (copyChildTimeline tl cid c2).1, r.dokIDAlus = some r.iadrID) ∧
    (copyChildTimeline tl cid c2).2.iadr = (copyChildTimeline tl cid c2).2.doc := by
  have hb := buildLoop_dok P pid fa k 0 P.earliest none c h
  have hc := copyLoop_dok cid tl c2 h2
  refine ⟨?_, hb.2, ?_, hc.2⟩
  · intro r hr
    dsimp only [buildAdultTimeline] at hr
    obtain ⟨b, hbmem, h1, h2b⟩ := mem_linkTimeline_ids _ r hr
    rw [h1, h2b]
    exact hb.1 b hbmem
  · intro r hr
    dsimp only [copyChildTimeline] at hr
    obtain ⟨b, hbmem, h1, h2b⟩ := mem_linkTimeline_ids _ r hr
    rw [h1, h2b]
    exact hc.1 b hbmem

/-- Witness for claim C10: starting from the initial counters (1, 1),
the single record built for a one-period adult has DokIDAlus = IAdrID
= 1. -/
theorem dokIDAlus_eq_iadrID_witness :
    (⟨1, 30, 1, 0, none, some 3, some 1, some 1, none, none⟩ : IRec).dokIDAlus = some 1 :=
  (dokIDAlus_eq_iadrID P0 1 30 1 initialCounters [] 5 initialCounters rfl rfl).1
    ⟨1, 30, 1, 0, none, some 3, some 1, some 1, none, none⟩ (by decide)

/-- Order used by the final sort of generate_isikuaadress:
df_history.sort_values on the original IAdrID. -/
def recLE (x y : IRec) : Prop := x.iadrID ≤ y.iadrID

instance : DecidableRel recLE := fun x y => Nat.decLe x.iadrID y.iadrID

instance : IsTotal IRec recLE := ⟨fun x y => Nat.le_total x.iadrID y.iadrID⟩

instance : IsTrans IRec recLE := ⟨fun _ _ _ h1 h2 => Nat.le_trans h1 h2⟩

/-- Sorting the collected records by original interval id. -/
def sortRecs (recs : List IRec) : List IRec := List.insertionSort recLE recs

/-- Embedding of the dict comprehension id_map = old-to-new built by
enumerate over the sorted ids, starting at 1; as in a python dict, a
later duplicate key would win. -/
def idMapFrom : List Nat → Nat → Nat → Option Nat
  | [], _, _ => none
  | x :: rest, base, q =>
    match idMapFrom rest (base + 1) q with
    | some v => some v
    | none => if q = x then some base else none

/-- The id map of the final renumbering step. -/
def idMapOf (recs : List IRec) : Nat → Option Nat :=
  fun q => idMapFrom ((sortRecs recs).map (fun r => r.iadrID)) 1 q

/-- Renumbering of one record: the primary key and the three pointer
columns (DokIDAlus, IAdrIDJargmine, DokIDLopuAlus) are mapped through
the id map; a pointer whose key is absent becomes null, as
id_map.get(x) does. -/
def renumberRec (m : Nat → Option Nat) (r : IRec) : IRec :=
  { r with iadrID := (m r.iadrID).getD 0,
           dokIDAlus := r.dokIDAlus.bind m,
           jargmine := r.jargmine.bind m,
           dokIDLopuAlus := r.dokIDLopuAlus.bind m }

/-- Embedding of the final renumbering step of generate_isikuaadress
(lines 344-367): sort by original id, build the id map, remap the
primary key and every pointer column. -/
def renumber (recs : List IRec) : List IRec :=
  (sortRecs recs).map (renumberRec (idMapOf recs))

/-- Pointer closure of one record with respect to a set of original
interval ids. -/
def ptrClosedB (ids : List Nat) (r : IRec) : Bool :=
  (match r.dokIDAlus with | none => true | some v => decide (v ∈ ids)) &&
  (match r.jargmine with | none => true | some v => decide (v ∈ ids)) &&
  (match r.dokIDLopuAlus with | none => true | some v => decide (v ∈ ids))

/-- Helper: the id map misses keys that are not in the list. -/
theorem idMapFrom_not_mem : ∀ (ids : List Nat) (b q : Nat), q ∉ ids →
    idMapFrom ids b q = none
  | [], _, _ => fun _ => rfl
  | x :: rest, b, q => by
    intro h
    dsimp only [idMapFrom]
    rw [idMapFrom_not_mem rest (b + 1) q (fun hm => h (List.mem_cons_of_mem x hm))]
    rw [if_neg (fun he => h (by rw [he]; exact List.mem_cons_self x rest))]

/-- Helper: on a duplicate-free list the id map sends the entry at
position i to base + i. -/
theorem idMapFrom_get : ∀ (ids : List Nat), ids.Nodup → ∀ (b i : Nat) (h : i < ids.length),
    idMapFrom ids b ids[i] = some (b + i)
  | [], _, b, i => by
    intro h
    cases h
  | x :: rest, hnd, b, i => by
    intro h
    rcases List.nodup_cons.1 hnd with ⟨hx, hrest⟩
    cases i with
    | zero =>
      dsimp only [idMapFrom]
      rw [show ((x :: rest)[0] : Nat) = x from rfl]
      rw [idMapFrom_not_mem rest (b + 1) x hx]
      rw [if_pos rfl]
      rfl
    | succ i =>
      have hlt : i < rest.length := by
        simpa using h
      have hget : ((x :: rest)[i + 1] : Nat) = rest[i] := by
        simp
      dsimp only [idMapFrom]
      rw [hget, idMapFrom_get rest hrest (b + 1) i hlt]
      have : b + 1 + i = b + (i + 1) := by omega
      rw [this]

/-- Helper: every value of the id map lies in the assigned range. -/
theorem idMapFrom_bounds : ∀ (ids : List Nat) (b q v : Nat),
    idMapFrom ids b q = some v → b ≤ v ∧ v < b + ids.length
  | [], _, _, _ => by
    intro h
    cases h
  | x :: rest, b, q, v => by
    intro h
    dsimp only [idMapFrom] at h
    cases hrec : idMapFrom rest (b + 1) q with
    | some w =>
      rw [hrec] at h
      injection h with hv
      have := idMapFrom_bounds rest (b + 1) q w hrec
      constructor
      · omega
      · simp only [List.length_cons]
        omega
    | none =>
      rw [hrec] at h
      by_cases hq : q = x
      · rw [if_pos hq] at h
        injection h with hv
        constructor
        · omega
        · simp only [List.length_cons]
          omega
      · rw [if_neg hq] at h
        cases h

/-- Helper: the id map hits every key present in the list. -/
theorem idMapFrom_mem : ∀ (ids : List Nat) (b q : Nat), q ∈ ids →
    ∃ v, idMapFrom ids b q = some v
  | [], _, _ => by
    intro h
    cases h
  | x :: rest, b, q => by
    intro h
    dsimp only [idMapFrom]
    cases hrec : idMapFrom rest (b + 1) q with
    | some w => exact ⟨w, rfl⟩
    | none =>
      rcases List.mem_cons.1 h with heq | hmem
      · exact ⟨b, by rw [if_pos heq]⟩
      · obtain ⟨w, hw⟩ := idMapFrom_mem rest (b + 1) q hmem
        rw [hw] at hrec
        cases hrec

/-- Helper: the sorted list has the same length as the input. -/
theorem sortRecs_length (recs : List IRec) : (sortRecs recs).length = recs.length :=
  (List.perm_insertionSort recLE recs).length_eq

/-- Helper: sorted membership is membership. -/
theorem mem_sortRecs {recs : List IRec} {r : IRec} (h : r ∈ sortRecs recs) : r ∈ recs :=
  (List.perm_insertionSort recLE recs).mem_iff.mp h

/-- Helper: sorting keeps the original ids duplicate-free. -/
theorem sortRecs_ids_nodup (recs : List IRec)
    (hnd : (recs.map (fun r => r.iadrID)).Nodup) :
    ((sortRecs recs).map (fun r => r.iadrID)).Nodup :=
  (((List.perm_insertionSort recLE recs).map (fun r => r.iadrID)).nodup_iff).mpr hnd

/-- Claim C8: after the final renumbering step of generate_isikuaadress
— given that the original interval ids are distinct and every non-null
pointer (DokIDAlus, IAdrIDJargmine, DokIDLopuAlus) refers to an id
present in the table, both of which the construction guarantees — the
new interval ids are exactly the consecutive integers 1..n, assigned in
ascending order of the original ids (the output keeps the sorted-by-old
order, conjunct two); every pointer that was non-null stays non-null
(conjunct four) and every non-null pointer value in the output refers
to an interval id that exists in the output table (conjunct three). -/
theorem renumber_spec (recs : List IRec)
    (hnd : (recs.map (fun r => r.iadrID)).Nodup)
    (hclosed : ∀ r ∈ recs, ptrClosedB (recs.map (fun r => r.iadrID)) r = true) :
    (renumber recs).map (fun r => r.iadrID) = List.range' 1 recs.length ∧
    List.Sorted (fun x y => x ≤ y) ((sortRecs recs).map (fun r => r.iadrID)) ∧
    (∀ r' ∈ renumber recs, ∀ v : Nat,
      (r'.dokIDAlus = some v ∨ r'.jargmine = some v ∨ r'.dokIDLopuAlus = some v) →
      v ∈ (renumber recs).map (fun r => r.iadrID)) ∧
    (∀ r ∈ sortRecs recs,
      ((renumberRec (idMapOf recs) r).dokIDAlus).isSome = (r.dokIDAlus).isSome ∧
      ((renumberRec (idMapOf recs) r).jargmine).isSome = (r.jargmine).isSome ∧
      ((renumberRec (idMapOf recs) r).dokIDLopuAlus).isSome = (r.dokIDLopuAlus).isSome) := by
  have hnd2 := sortRecs_ids_nodup recs hnd
  have hlen : ((sortRecs recs).map (fun r => r.iadrID)).length = recs.length := by
    rw [List.length_map, sortRecs_length]
  have hrange : (renumber recs).map (fun r => r.iadrID) = List.range' 1 recs.length := by
    apply List.ext_getElem
    · simp [renumber, sortRecs_length]
    · intro i h1 h2
      have hi2 : i < (sortRecs recs).length := by
        simpa [renumber] using h1
      have hi : i < ((sortRecs recs).map (fun r => r.iadrID)).length := by
        simpa using hi2
      have hmap : (((renumber recs).map (fun r => r.iadrID))[i] : Nat)
          = (idMapOf recs ((sortRecs recs)[i].iadrID)).getD 0 := by
        simp [renumber, renumberRec]
      have hid : (((sortRecs recs).map (fun r => r.iadrID))[i] : Nat)
          = (sortRecs recs)[i].iadrID := by
        simp
      have := idMapFrom_get ((sortRecs recs).map (fun r => r.iadrID)) hnd2 1 i hi
      rw [hid] at this
      rw [hmap]
      unfold idMapOf
      rw [this]
      simp [List.getElem_range']
  refine ⟨hrange, ?_, ?_, ?_⟩
  · exact (List.pairwise_map).2 ((List.sorted_insertionSort recLE recs).imp (fun h => h))
  · intro r' hr' v hv
    have hval : ∃ w, idMapOf recs w = some v := by
      obtain ⟨r0, hr0, heq⟩ := List.mem_map.1 hr'
      rcases hv with h | h | h
      · rw [← heq] at h
        obtain ⟨w, hw1, hw2⟩ := Option.bind_eq_some.1 h
        exact ⟨w, hw2⟩
      · rw [← heq] at h
        obtain ⟨w, hw1, hw2⟩ := Option.bind_eq_some.1 h
        exact ⟨w, hw2⟩
      · rw [← heq] at h
        obtain ⟨w, hw1, hw2⟩ := Option.bind_eq_some.1 h
        exact ⟨w, hw2⟩
    obtain ⟨w, hw⟩ := hval
    have hb := idMapFrom_bounds _ 1 w v hw
    rw [hlen] at hb
    rw [hrange]
    rw [List.mem_range'_1]
    omega
  · intro r hr
    have hcl := hclosed r (mem_sortRecs hr)
    simp only [ptrClosedB, Bool.and_eq_true] at hcl
    have hmap : ∀ w : Nat, w ∈ recs.map (fun r => r.iadrID) →
        ∃ v, idMapOf recs w = some v := by
      intro w hw
      apply idMapFrom_mem
      exact (((List.perm_insertionSort recLE recs).map (fun r => r.iadrID)).mem_iff).mpr hw
    refine ⟨?_, ?_, ?_⟩
    · cases ho : r.dokIDAlus with
      | none => simp [renumberRec, ho]
      | some w =>
        rw [ho] at hcl
        have hw : w ∈ recs.map (fun r => r.iadrID) := of_decide_eq_true hcl.1.1
        obtain ⟨v, hv⟩ := hmap w hw
        simp [renumberRec, ho, hv]
    · cases ho : r.jargmine with
      | none => simp [renumberRec, ho]
      | some w =>
        rw [ho] at hcl
        have hw : w ∈ recs.map (fun r => r.iadrID) := of_decide_eq_true hcl.1.2
        obtain ⟨v, hv⟩ := hmap w hw
        simp [renumberRec, ho, hv]
    · cases ho : r.dokIDLopuAlus with
      | none => simp [renumberRec, ho]
      | some w =>
        rw [ho] at hcl
        have hw : w ∈ recs.map (fun r => r.iadrID) := of_decide_eq_true hcl.2
        obtain ⟨v, hv⟩ := hmap w hw
        simp [renumberRec, ho, hv]

/-- Witness for claim C8 on a concrete two-record table with original
ids 5 and 3 and pointers among them: the new ids are 1 and 2, assigned
in ascending order of the original ids. -/
theorem renumber_spec_witness :
    (renumber [⟨5, 0, 0, 0, none, none, none, some 5, none, none⟩,
      ⟨3, 0, 0, 0, none, none, none, some 3, some 5, some 5⟩]).map (fun r => r.iadrID)
      = [1, 2] := by
  have h := (renumber_spec [⟨5, 0, 0, 0, none, none, none, some 5, none, none⟩,
    ⟨3, 0, 0, 0, none, none, none, some 3, some 5, some 5⟩] (by decide) (by decide)).1
  simpa using h
